import Mathlib

/-!
Shallow embedding of `src/expense2.cpp` (Asharibk/Expensemanager).

The program keeps four views of an expense dataset:
* `expenses`       — the authoritative append-only log (`std::vector<Expense>`);
* `categoryMap`    — per-category buckets holding *copies* of the records
  (`std::unordered_map<std::string, std::vector<Expense>>`);
* `categoryTotals` — running per-category sums (`std::unordered_map<std::string,double>`);
* `maxHeap`        — an amount-ordered priority view holding *copies*
  (`std::priority_queue` with `CompareByAmount`).

Modelling choices:
* `double` amounts become `ℚ` (exact arithmetic; the code only adds amounts);
* the two `unordered_map`s become functions `String → Option _`
  (`none` = key absent), which captures key creation by `operator[]`;
* the `priority_queue` is represented by the sorted sequence of its
  extraction order: `push` is `List.orderedInsert` by descending amount and
  `pop` takes the head.  Ties in `amount` are broken deterministically
  (insertion order), one of the behaviours the C++ standard permits;
* `std::sort` in `filterByDate` becomes `List.insertionSort` by date —
  a sorted permutation, as any conforming `std::sort` produces;
* console printing becomes the returned `List Expense` of each query.
-/

/-- `struct Expense` from the source: amount, category, date and the lazy
deletion marker (`deleted = false` by default). -/
structure Expense where
  amount : ℚ
  category : String
  date : String
  deleted : Bool
deriving DecidableEq, Repr

/-- The ordering used by `std::sort` in `filterByDate`: `Expense::operator<`
compares the `date` strings; a sorted list satisfies this reflexive form. -/
def dateLE (a b : Expense) : Prop := a.date ≤ b.date

instance : DecidableRel dateLE := fun a b => inferInstanceAs (Decidable (a.date ≤ b.date))

instance : IsTotal Expense dateLE := ⟨fun a b => le_total a.date b.date⟩

instance : IsTrans Expense dateLE := ⟨fun _ _ _ h1 h2 => le_trans h1 h2⟩

/-- The max-heap ordering from `CompareByAmount`: larger amounts come out
first, so `a` precedes `b` when `b.amount ≤ a.amount`. -/
def amtGE (a b : Expense) : Prop := b.amount ≤ a.amount

instance : DecidableRel amtGE := fun a b => inferInstanceAs (Decidable (b.amount ≤ a.amount))

instance : IsTotal Expense amtGE := ⟨fun a b => le_total b.amount a.amount⟩

instance : IsTrans Expense amtGE := ⟨fun _ _ _ h1 h2 => le_trans h2 h1⟩

/-- `class ExpenseTracker`: the four views. -/
structure ExpenseTracker where
  expenses : List Expense
  categoryMap : String → Option (List Expense)
  categoryTotals : String → Option ℚ
  maxHeap : List Expense

/-- A freshly constructed tracker: every view empty, no map keys. -/
def initTracker : ExpenseTracker :=
  { expenses := []
    categoryMap := fun _ => none
    categoryTotals := fun _ => none
    maxHeap := [] }

/-- `ExpenseTracker::addExpense`: append to the log, push a copy into the
category bucket (`operator[]` creates the bucket when absent), add the amount
to the category total (`operator[]` zero-initialises when absent), and push a
copy onto the max-heap.  The record is created with `deleted = false`. -/
def addExpense (amount : ℚ) (category date : String) (s : ExpenseTracker) :
    ExpenseTracker :=
  let exp : Expense := ⟨amount, category, date, false⟩
  { expenses := s.expenses ++ [exp]
    categoryMap := fun k =>
      if k = category then some ((s.categoryMap category).getD [] ++ [exp])
      else s.categoryMap k
    categoryTotals := fun k =>
      if k = category then some ((s.categoryTotals category).getD 0 + amount)
      else s.categoryTotals k
    maxHeap := List.orderedInsert amtGE exp s.maxHeap }

/-- `expenses[index].deleted = true` on the backing list, leaving every other
entry untouched (out-of-range index: no change). -/
def markDeleted : List Expense → Nat → List Expense
  | [], _ => []
  | e :: rest, 0 => { e with deleted := true } :: rest
  | e :: rest, n + 1 => e :: markDeleted rest n

/-- `ExpenseTracker::deleteExpense(size_t index)`: when `index <
expenses.size()` mark the log entry deleted and report success ("Expense
deleted lazily."); otherwise report failure ("Invalid index.") and leave the
tracker untouched.  The `Bool` is the success signal. -/
def deleteExpense (index : Nat) (s : ExpenseTracker) : Bool × ExpenseTracker :=
  if index < s.expenses.length then
    (true, { s with expenses := markDeleted s.expenses index })
  else
    (false, s)

/-- `ExpenseTracker::viewExpenses`: scan the log in order, printing the
entries whose `deleted` flag is unset. -/
def viewExpenses (s : ExpenseTracker) : List Expense :=
  s.expenses.filter (fun e => !e.deleted)

/-- `ExpenseTracker::filterByCategory`: look the bucket up; when present,
print its non-deleted entries, otherwise print nothing ("No expenses found"). -/
def filterByCategory (category : String) (s : ExpenseTracker) : List Expense :=
  match s.categoryMap category with
  | some bucket => bucket.filter (fun e => !e.deleted)
  | none => []

/-- `ExpenseTracker::viewCategoryTotals`: the aggregate mapping as stored. -/
def viewCategoryTotals (s : ExpenseTracker) : String → Option ℚ :=
  s.categoryTotals

/-- `ExpenseTracker::filterByDate`: `std::sort` the backing log by date
(this mutates the member `expenses`), take the `std::equal_range` for the
target date on the sorted list — everything from the first entry not
date-below `targetDate` up to the first entry date-above it — and print the
non-deleted entries of that range.  Returns (printed records, new state). -/
def filterByDate (targetDate : String) (s : ExpenseTracker) :
    List Expense × ExpenseTracker :=
  let sorted := List.insertionSort dateLE s.expenses
  let range := (sorted.dropWhile (fun e => decide (e.date < targetDate))).takeWhile
    (fun e => !decide (targetDate < e.date))
  (range.filter (fun e => !e.deleted), { s with expenses := sorted })

/-- The extraction loop of `viewTopExpenses`: `for (i = 0; i < N &&
!tempHeap.empty(); ++i)` pops the maximum each iteration — every pop counts
toward `N` — and prints it only when its `deleted` flag is unset.  The heap
argument is the extraction order (descending amount). -/
def topLoop : Nat → List Expense → List Expense
  | 0, _ => []
  | _ + 1, [] => []
  | n + 1, top :: rest =>
      (if top.deleted then [] else [top]) ++ topLoop n rest

/-- `ExpenseTracker::viewTopExpenses(size_t N)`: copy the heap into
`tempHeap`, run the extraction loop on the copy, and leave the tracker as it
was (the member heap is never mutated). -/
def viewTopExpenses (N : Nat) (s : ExpenseTracker) :
    List Expense × ExpenseTracker :=
  (topLoop N s.maxHeap, s)

/-- One user-visible operation of the tracker (a menu action of `main`). -/
inductive Op where
  | add (amount : ℚ) (category date : String)
  | delete (index : Nat)
  | view
  | byCategory (category : String)
  | totals
  | byDate (date : String)
  | top (n : Nat)
deriving DecidableEq, Repr

/-- State transition of one operation; queries other than `filterByDate`
leave the state unchanged (`filterByDate` re-sorts the log in place). -/
def step (s : ExpenseTracker) : Op → ExpenseTracker
  | .add a c d => addExpense a c d s
  | .delete i => (deleteExpense i s).2
  | .view => s
  | .byCategory _ => s
  | .totals => s
  | .byDate d => (filterByDate d s).2
  | .top _ => s

/-- Run a sequence of operations from the fresh tracker. -/
def runOps (ops : List Op) : ExpenseTracker :=
  ops.foldl step initTracker

/-- Run a sequence of operations from an arbitrary state. -/
def runFrom (s : ExpenseTracker) (ops : List Op) : ExpenseTracker :=
  ops.foldl step s

/-- The amounts of the `add` calls with category `K`, in call order. -/
def amountsFor (K : String) (ops : List Op) : List ℚ :=
  ops.filterMap fun op =>
    match op with
    | .add a c _ => if c = K then some a else none
    | _ => none

/-- The records created by the `add` calls, in call order (each is born with
`deleted = false`). -/
def addedRecords (ops : List Op) : List Expense :=
  ops.filterMap fun op =>
    match op with
    | .add a c d => some ⟨a, c, d, false⟩
    | _ => none

/-- The payload of a record: every field except the deletion marker. -/
def core (e : Expense) : ℚ × String × String := (e.amount, e.category, e.date)

/-- Whether an operation is an `addExpense` or `deleteExpense` call. -/
def isAddDel : Op → Bool
  | .add _ _ _ => true
  | .delete _ => true
  | _ => false

/-! ### Helper lemmas -/

theorem markDeleted_length (l : List Expense) (i : Nat) :
    (markDeleted l i).length = l.length := by
  induction l generalizing i with
  | nil => rfl
  | cons e rest ih =>
    cases i with
    | zero => rfl
    | succ n => simpa [markDeleted] using ih n

theorem markDeleted_get_self (l : List Expense) (i : Nat) (h : i < l.length)
    (h' : i < (markDeleted l i).length) :
    (markDeleted l i).get ⟨i, h'⟩ = { l.get ⟨i, h⟩ with deleted := true } := by
  induction l generalizing i with
  | nil => exact absurd h (by simp)
  | cons e rest ih =>
    cases i with
    | zero => rfl
    | succ n =>
      simp only [markDeleted, List.get_cons_succ]
      exact ih n (by simpa using h) (by simpa [markDeleted_length] using h')

theorem markDeleted_get_other (l : List Expense) (i j : Nat) (h : j < l.length)
    (h' : j < (markDeleted l i).length) (hij : j ≠ i) :
    (markDeleted l i).get ⟨j, h'⟩ = l.get ⟨j, h⟩ := by
  induction l generalizing i j with
  | nil => exact absurd h (by simp)
  | cons e rest ih =>
    cases i with
    | zero =>
      cases j with
      | zero => exact absurd rfl hij
      | succ m => rfl
    | succ n =>
      cases j with
      | zero => rfl
      | succ m =>
        simp only [markDeleted, List.get_cons_succ]
        exact ih n m (by simpa using h) (by simpa [markDeleted_length] using h')
          (fun hc => hij (by simp [hc]))

theorem markDeleted_idem (l : List Expense) (i : Nat) :
    markDeleted (markDeleted l i) i = markDeleted l i := by
  induction l generalizing i with
  | nil => rfl
  | cons e rest ih =>
    cases i with
    | zero => rfl
    | succ n => simp [markDeleted, ih n]

theorem markDeleted_map_core (l : List Expense) (i : Nat) :
    (markDeleted l i).map core = l.map core := by
  induction l generalizing i with
  | nil => rfl
  | cons e rest ih =>
    cases i with
    | zero => simp [markDeleted, core]
    | succ n => simp [markDeleted, ih n]

theorem deleteExpense_snd (i : Nat) (s : ExpenseTracker) :
    (deleteExpense i s).2 =
      if i < s.expenses.length then { s with expenses := markDeleted s.expenses i }
      else s := by
  unfold deleteExpense
  split <;> rfl

theorem deleteExpense_fst (i : Nat) (s : ExpenseTracker) :
    (deleteExpense i s).1 = decide (i < s.expenses.length) := by
  unfold deleteExpense
  split <;> simp_all

theorem filterByDate_snd (d : String) (s : ExpenseTracker) :
    (filterByDate d s).2 = { s with expenses := List.insertionSort dateLE s.expenses } := rfl

/-- Only `addExpense` ever changes the category views. -/
theorem step_categoryMap (s : ExpenseTracker) (op : Op) (hop : ∀ a c d, op ≠ .add a c d) :
    (step s op).categoryMap = s.categoryMap := by
  cases op with
  | add a c d => exact absurd rfl (hop a c d)
  | delete i => rw [step, deleteExpense_snd]; split <;> rfl
  | _ => rfl

theorem step_categoryTotals (s : ExpenseTracker) (op : Op) (hop : ∀ a c d, op ≠ .add a c d) :
    (step s op).categoryTotals = s.categoryTotals := by
  cases op with
  | add a c d => exact absurd rfl (hop a c d)
  | delete i => rw [step, deleteExpense_snd]; split <;> rfl
  | _ => rfl

theorem step_maxHeap (s : ExpenseTracker) (op : Op) (hop : ∀ a c d, op ≠ .add a c d) :
    (step s op).maxHeap = s.maxHeap := by
  cases op with
  | add a c d => exact absurd rfl (hop a c d)
  | delete i => rw [step, deleteExpense_snd]; split <;> rfl
  | _ => rfl

/-- Invariant of every reachable tracker state: the derived views hold only
live copies (`deleted = false`), the two category maps share their key set,
the stored total of each category is the sum of its bucket's amounts, and the
heap list is sorted by descending amount. -/
def TrackerInv (s : ExpenseTracker) : Prop :=
  (∀ e ∈ s.maxHeap, e.deleted = false) ∧
  (∀ K : String, ∀ e ∈ (s.categoryMap K).getD [], e.deleted = false) ∧
  (∀ K : String, (s.categoryMap K).isSome ↔ (s.categoryTotals K).isSome) ∧
  (∀ K : String, (s.categoryTotals K).getD 0 =
    (((s.categoryMap K).getD []).map Expense.amount).sum) ∧
  List.Sorted amtGE s.maxHeap

theorem trackerInv_init : TrackerInv initTracker := by
  refine ⟨?_, ?_, ?_, ?_, ?_⟩ <;> simp [initTracker, List.Sorted]

theorem trackerInv_step (s : ExpenseTracker) (op : Op) (h : TrackerInv s) : TrackerInv (step s op) := by
  obtain ⟨hheap, hbuck, hkeys, hsum, hsort⟩ := h
  cases op with
  | add a c d =>
    refine ⟨?_, ?_, ?_, ?_, ?_⟩
    · intro e he
      rw [step, addExpense] at he
      simp only at he
      rcases (List.mem_orderedInsert amtGE).mp he with h1 | h1
      · simp [h1]
      · exact hheap e h1
    · intro K e he
      rw [step, addExpense] at he
      simp only at he
      by_cases hK : K = c
      · simp only [hK, if_pos rfl] at he
        rcases List.mem_append.mp he with h1 | h1
        · exact hbuck c e h1
        · simp at h1; simp [h1]
      · rw [if_neg hK] at he
        exact hbuck K e he
    · intro K
      rw [step, addExpense]
      simp only
      by_cases hK : K = c
      · simp [hK]
      · simp only [if_neg hK]
        exact hkeys K
    · intro K
      rw [step, addExpense]
      simp only
      by_cases hK : K = c
      · simp only [hK, if_pos rfl, Option.getD_some, List.map_append, List.sum_append]
        simp [hsum c]
      · simp only [if_neg hK]
        exact hsum K
    · rw [step, addExpense]
      simp only
      exact hsort.orderedInsert _ _
  | delete i =>
    rw [step, deleteExpense_snd]
    split
    · exact ⟨hheap, hbuck, hkeys, hsum, hsort⟩
    · exact ⟨hheap, hbuck, hkeys, hsum, hsort⟩
  | view => exact ⟨hheap, hbuck, hkeys, hsum, hsort⟩
  | byCategory c => exact ⟨hheap, hbuck, hkeys, hsum, hsort⟩
  | totals => exact ⟨hheap, hbuck, hkeys, hsum, hsort⟩
  | byDate d =>
    rw [step, filterByDate_snd]
    exact ⟨hheap, hbuck, hkeys, hsum, hsort⟩
  | top n => exact ⟨hheap, hbuck, hkeys, hsum, hsort⟩

theorem trackerInv_runFrom (s : ExpenseTracker) (ops : List Op) (h : TrackerInv s) :
    TrackerInv (runFrom s ops) := by
  induction ops generalizing s with
  | nil => exact h
  | cons op ops ih => exact ih (step s op) (trackerInv_step s op h)

theorem trackerInv_runOps (ops : List Op) : TrackerInv (runOps ops) :=
  trackerInv_runFrom initTracker ops trackerInv_init

/-- On a heap whose entries are all live, the extraction loop outputs
exactly the first `n` popped entries. -/
theorem topLoop_take (n : Nat) (h : List Expense)
    (hlive : ∀ e ∈ h, e.deleted = false) : topLoop n h = h.take n := by
  induction n generalizing h with
  | zero => rfl
  | succ n ih =>
    cases h with
    | nil => rfl
    | cons top rest =>
      have htop : top.deleted = false := hlive top (List.mem_cons_self top rest)
      simp only [topLoop, htop, List.take_succ_cons]
      simp only [Bool.false_eq_true, if_false, List.singleton_append]
      rw [ih rest (fun e he => hlive e (List.mem_cons_of_mem top he))]

theorem addedRecords_cons_add (a : ℚ) (c d : String) (ops : List Op) :
    addedRecords (Op.add a c d :: ops) = ⟨a, c, d, false⟩ :: addedRecords ops := rfl

theorem addedRecords_cons_other (op : Op) (ops : List Op)
    (hop : ∀ a c d, op ≠ .add a c d) :
    addedRecords (op :: ops) = addedRecords ops := by
  cases op with
  | add a c d => exact absurd rfl (hop a c d)
  | _ => rfl

/-- The heap of a run holds exactly the records ever added (plus whatever it
started with), in some order. -/
theorem maxHeap_perm (ops : List Op) (s : ExpenseTracker) :
    List.Perm (runFrom s ops).maxHeap (addedRecords ops ++ s.maxHeap) := by
  induction ops generalizing s with
  | nil => simp [runFrom, addedRecords]
  | cons op ops ih =>
    have hrun : runFrom s (op :: ops) = runFrom (step s op) ops := rfl
    rw [hrun]
    by_cases hadd : ∃ a c d, op = Op.add a c d
    · obtain ⟨a, c, d, rfl⟩ := hadd
      have hstep : (step s (Op.add a c d)).maxHeap =
          List.orderedInsert amtGE ⟨a, c, d, false⟩ s.maxHeap := rfl
      refine (ih (step s (Op.add a c d))).trans ?_
      rw [hstep, addedRecords_cons_add]
      have h1 : List.Perm
          (addedRecords ops ++ List.orderedInsert amtGE ⟨a, c, d, false⟩ s.maxHeap)
          (addedRecords ops ++ (⟨a, c, d, false⟩ :: s.maxHeap)) :=
        List.Perm.append_left _ (List.perm_orderedInsert _ _ _)
      have h2 : List.Perm
          (addedRecords ops ++ (⟨a, c, d, false⟩ :: s.maxHeap))
          ((⟨a, c, d, false⟩ :: addedRecords ops) ++ s.maxHeap) :=
        List.perm_middle
      exact h1.trans h2
    · have hop : ∀ a c d, op ≠ Op.add a c d := by
        intro a c d hc
        exact hadd ⟨a, c, d, hc⟩
      refine (ih (step s op)).trans ?_
      rw [step_maxHeap s op hop, addedRecords_cons_other op ops hop]

theorem amountsFor_cons_add (K : String) (a : ℚ) (c d : String) (ops : List Op) :
    amountsFor K (Op.add a c d :: ops) =
      if c = K then a :: amountsFor K ops else amountsFor K ops := by
  by_cases hc : c = K <;> simp [amountsFor, List.filterMap_cons, hc]

theorem amountsFor_cons_other (K : String) (op : Op) (ops : List Op)
    (hop : ∀ a c d, op ≠ .add a c d) :
    amountsFor K (op :: ops) = amountsFor K ops := by
  cases op with
  | add a c d => exact absurd rfl (hop a c d)
  | _ => rfl

/-- Running any operations adds exactly the amounts of the `add` calls with
category `K` to the stored total for `K` (absent key read as `0`). -/
theorem categoryTotals_runFrom (ops : List Op) (s : ExpenseTracker) (K : String) :
    ((runFrom s ops).categoryTotals K).getD 0 =
      (s.categoryTotals K).getD 0 + (amountsFor K ops).sum := by
  induction ops generalizing s with
  | nil => simp [runFrom, amountsFor]
  | cons op ops ih =>
    have hrun : runFrom s (op :: ops) = runFrom (step s op) ops := rfl
    rw [hrun]
    by_cases hadd : ∃ a c d, op = Op.add a c d
    · obtain ⟨a, c, d, rfl⟩ := hadd
      rw [ih (step s (Op.add a c d)), amountsFor_cons_add]
      by_cases hc : c = K
      · subst hc
        have hstep : (step s (Op.add a c d)).categoryTotals c =
            some ((s.categoryTotals c).getD 0 + a) := by
          simp [step, addExpense]
        rw [hstep]
        simp [List.sum_cons]
        ring
      · have hstep : (step s (Op.add a c d)).categoryTotals K = s.categoryTotals K := by
          simp only [step, addExpense]
          rw [if_neg (fun h => hc h.symm)]
        rw [hstep, if_neg hc]
    · have hop : ∀ a c d, op ≠ Op.add a c d := fun a c d hc => hadd ⟨a, c, d, hc⟩
      rw [ih (step s op), step_categoryTotals s op hop, amountsFor_cons_other K op ops hop]

/-- With only `add`/`delete` operations the log's payloads (amount, category,
date) are exactly the insertion sequence: `delete` flips flags but never
reorders, and `add` appends. -/
theorem expenses_core_runFrom (ops : List Op) (s : ExpenseTracker)
    (h : ∀ o ∈ ops, isAddDel o = true) :
    ((runFrom s ops).expenses).map core =
      s.expenses.map core ++ (addedRecords ops).map core := by
  induction ops generalizing s with
  | nil => simp [runFrom, addedRecords]
  | cons op ops ih =>
    have hops : ∀ o ∈ ops, isAddDel o = true :=
      fun o ho => h o (List.mem_cons_of_mem op ho)
    have hrun : runFrom s (op :: ops) = runFrom (step s op) ops := rfl
    rw [hrun, ih (step s op) hops]
    cases op with
    | add a c d =>
      have hstep : (step s (Op.add a c d)).expenses =
          s.expenses ++ [⟨a, c, d, false⟩] := rfl
      rw [hstep, addedRecords_cons_add]
      simp
    | delete i =>
      have hcore : ((step s (Op.delete i)).expenses).map core = s.expenses.map core := by
        rw [step, deleteExpense_snd]
        split
        · exact markDeleted_map_core s.expenses i
        · rfl
      rw [hcore, addedRecords_cons_other _ _ (by intro a c d hc; cases hc)]
    | view => exact absurd (h Op.view (List.mem_cons_self _ _)) (by simp [isAddDel])
    | byCategory c =>
      exact absurd (h (Op.byCategory c) (List.mem_cons_self _ _)) (by simp [isAddDel])
    | totals => exact absurd (h Op.totals (List.mem_cons_self _ _)) (by simp [isAddDel])
    | byDate d =>
      exact absurd (h (Op.byDate d) (List.mem_cons_self _ _)) (by simp [isAddDel])
    | top n => exact absurd (h (Op.top n) (List.mem_cons_self _ _)) (by simp [isAddDel])

/-- On a date-sorted list all of whose dates are at least `d`, the
upper-bound prefix (entries not date-above `d`) is exactly the entries with
date `d`. -/
theorem takeWhile_eq_filter_of_ge (d : String) :
    ∀ l : List Expense, List.Sorted dateLE l → (∀ e ∈ l, d ≤ e.date) →
      l.takeWhile (fun e => !decide (d < e.date)) =
        l.filter (fun e => decide (e.date = d)) := by
  intro l
  induction l with
  | nil => intro _ _; rfl
  | cons a l ih =>
    intro hsort hge
    rw [List.sorted_cons] at hsort
    obtain ⟨ha, hsort'⟩ := hsort
    by_cases hd : d < a.date
    · have hne : a.date ≠ d := ne_of_gt hd
      have hfl : l.filter (fun e => decide (e.date = d)) = [] := by
        rw [List.filter_eq_nil_iff]
        intro e he
        have h2 : d < e.date := lt_of_lt_of_le hd (ha e he)
        simpa using ne_of_gt h2
      rw [List.takeWhile_cons_of_neg (by simpa using hd),
        List.filter_cons_of_neg (by simpa using hne), hfl]
    · have heq : a.date = d := le_antisymm (not_lt.mp hd) (hge a (List.mem_cons_self a l))
      have hrest := ih hsort' (fun e he => hge e (List.mem_cons_of_mem a he))
      rw [List.takeWhile_cons_of_pos (by simpa using hd),
        List.filter_cons_of_pos (by simpa using heq), hrest]

/-- The `std::equal_range` segment of a date-sorted list is exactly its
entries with date `d`: drop the entries date-below `d`, then take the entries
not date-above `d`. -/
theorem range_eq_filter (d : String) :
    ∀ l : List Expense, List.Sorted dateLE l →
      ((l.dropWhile (fun e => decide (e.date < d))).takeWhile
          (fun e => !decide (d < e.date))) =
        l.filter (fun e => decide (e.date = d)) := by
  intro l
  induction l with
  | nil => intro _; rfl
  | cons a l ih =>
    intro hsort
    rw [List.sorted_cons] at hsort
    obtain ⟨ha, hsort'⟩ := hsort
    by_cases hd : a.date < d
    · have hne : a.date ≠ d := ne_of_lt hd
      rw [List.dropWhile_cons_of_pos (by simpa using hd),
        List.filter_cons_of_neg (by simpa using hne)]
      exact ih hsort'
    · have hge : ∀ e ∈ a :: l, d ≤ e.date := by
        intro e he
        rcases List.mem_cons.mp he with rfl | he'
        · exact not_lt.mp hd
        · exact le_trans (not_lt.mp hd) (ha e he')
      rw [List.dropWhile_cons_of_neg (by simpa using hd)]
      exact takeWhile_eq_filter_of_ge d (a :: l) (List.sorted_cons.mpr ⟨ha, hsort'⟩) hge

/-! ### Claim theorems -/

/-- C1: for every category `K` and every operation sequence, the value stored
in `categoryTotals` for `K` (read as `0` when the key is absent) equals the
sum of the amounts of all `addExpense` calls made with category `K`;
`deleteExpense` never decrements it. -/
theorem claim_C1 (ops : List Op) (K : String) :
    ((runOps ops).categoryTotals K).getD 0 = (amountsFor K ops).sum := by
  have h := categoryTotals_runFrom ops initTracker K
  simpa [initTracker] using h

/-- C9: `viewTopExpenses` works on a disposable copy of the heap and leaves
the tracker — log, category views and the member heap — entirely unchanged. -/
theorem claim_C9 (s : ExpenseTracker) (N : Nat) : (viewTopExpenses N s).2 = s := rfl

/-- C10: in every reachable state, `categoryMap` and `categoryTotals` have
the same key set, and the stored total for each category equals the sum of the
amounts of all entries of its bucket (deleted or not). -/
theorem claim_C10 (ops : List Op) (K : String) :
    (((runOps ops).categoryMap K).isSome ↔ ((runOps ops).categoryTotals K).isSome) ∧
    ((runOps ops).categoryTotals K).getD 0 =
      ((((runOps ops).categoryMap K).getD []).map Expense.amount).sum := by
  obtain ⟨_, _, hkeys, hsum, _⟩ := trackerInv_runOps ops
  exact ⟨hkeys K, hsum K⟩

/-- C6: `filterByDate` physically re-sorts the backing log: afterwards the
log is a permutation of its previous contents, in non-decreasing
lexicographic date order, each record carried over intact; the other three
views are untouched. -/
theorem claim_C6 (s : ExpenseTracker) (d : String) :
    List.Perm ((filterByDate d s).2.expenses) s.expenses ∧
    List.Sorted dateLE ((filterByDate d s).2.expenses) ∧
    (filterByDate d s).2.categoryMap = s.categoryMap ∧
    (filterByDate d s).2.categoryTotals = s.categoryTotals ∧
    (filterByDate d s).2.maxHeap = s.maxHeap := by
  rw [filterByDate_snd]
  exact ⟨List.perm_insertionSort dateLE s.expenses,
    List.sorted_insertionSort dateLE s.expenses, rfl, rfl, rfl⟩

/-- C2 (counterexample): after adding one expense and deleting it, the store
has no visible record, yet `viewTopExpenses 1` still outputs the record — the
heap holds an independent copy whose `deleted` flag was never set, so the
claimed "N visible records" reading is false. -/
theorem claim_C2_counterexample :
    (viewTopExpenses 1 (runOps [Op.add 10 "a" "2024-01-01", Op.delete 0])).1 =
      [⟨10, "a", "2024-01-01", false⟩] ∧
    (runOps [Op.add 10 "a" "2024-01-01", Op.delete 0]).expenses.filter
      (fun e => !e.deleted) = [] := by
  exact ⟨rfl, rfl⟩

/-- C2 (amended): `viewTopExpenses N` outputs the first `N` entries of the
heap's extraction order — the `N` largest-amount records among *all* records
ever added, deletions ignored (the heap copies are never marked deleted) —
in descending order of amount; `N = 0` outputs nothing, and an `N` at least
the number of records ever added outputs all of them. -/
theorem claim_C2_amended (ops : List Op) (N : Nat) :
    (viewTopExpenses N (runOps ops)).1 = (runOps ops).maxHeap.take N ∧
    List.Sorted amtGE (viewTopExpenses N (runOps ops)).1 ∧
    (viewTopExpenses N (runOps ops)).1.length = min N (runOps ops).maxHeap.length ∧
    List.Perm (runOps ops).maxHeap (addedRecords ops) ∧
    (viewTopExpenses 0 (runOps ops)).1 = [] ∧
    ((runOps ops).maxHeap.length ≤ N →
      (viewTopExpenses N (runOps ops)).1 = (runOps ops).maxHeap) := by
  obtain ⟨hlive, _, _, _, hsort⟩ := trackerInv_runOps ops
  have htake : (viewTopExpenses N (runOps ops)).1 = (runOps ops).maxHeap.take N :=
    topLoop_take N (runOps ops).maxHeap hlive
  have hperm : List.Perm (runOps ops).maxHeap (addedRecords ops) := by
    have h := maxHeap_perm ops initTracker
    simpa [initTracker] using h
  refine ⟨htake, ?_, ?_, hperm, rfl, ?_⟩
  · rw [htake]
    exact hsort.take
  · rw [htake, List.length_take]
  · intro hN
    rw [htake]
    exact List.take_of_length_le hN

/-- C2 (amended) witness: the implication in the last conjunct discharged on
a concrete run. -/
theorem claim_C2_amended_witness :
    (viewTopExpenses 3 (runOps [Op.add 5 "a" "2024-01-01", Op.add 7 "b" "2024-01-02"])).1 =
      (runOps [Op.add 5 "a" "2024-01-01", Op.add 7 "b" "2024-01-02"]).maxHeap :=
  (claim_C2_amended [Op.add 5 "a" "2024-01-01", Op.add 7 "b" "2024-01-02"] 3).2.2.2.2.2
    (by decide)

/-- C5: the records printed by `filterByDate d` are exactly (as a multiset)
the log's records with date `d` and an unset `deleted` flag, whatever the
insertion order; in particular the output is empty when no record has date
`d`. -/
theorem claim_C5 (s : ExpenseTracker) (d : String) :
    List.Perm (filterByDate d s).1
      (s.expenses.filter (fun e => decide (e.date = d) && !e.deleted)) ∧
    ((∀ e ∈ s.expenses, e.date ≠ d) → (filterByDate d s).1 = []) := by
  have hsorted := List.sorted_insertionSort dateLE s.expenses
  have hmain : List.Perm (filterByDate d s).1
      (s.expenses.filter (fun e => decide (e.date = d) && !e.deleted)) := by
    show List.Perm
      ((((List.insertionSort dateLE s.expenses).dropWhile
          (fun e => decide (e.date < d))).takeWhile
          (fun e => !decide (d < e.date))).filter (fun e => !e.deleted)) _
    rw [range_eq_filter d _ hsorted, List.filter_filter]
    have hcomm : (List.insertionSort dateLE s.expenses).filter
        (fun e => (!e.deleted) && decide (e.date = d)) =
        (List.insertionSort dateLE s.expenses).filter
        (fun e => decide (e.date = d) && !e.deleted) :=
      List.filter_congr (fun e _ => Bool.and_comm _ _)
    rw [hcomm]
    exact (List.perm_insertionSort dateLE s.expenses).filter _
  refine ⟨hmain, ?_⟩
  intro hnone
  have hfl : s.expenses.filter (fun e => decide (e.date = d) && !e.deleted) = [] := by
    rw [List.filter_eq_nil_iff]
    intro e he
    simp [hnone e he]
  rw [hfl] at hmain
  exact hmain.eq_nil

/-- C5 witness: on a run whose only record has a different date, the printed
list is empty. -/
theorem claim_C5_witness :
    (filterByDate "2024-02-02" (runOps [Op.add 5 "a" "2024-01-01"])).1 = [] :=
  (claim_C5 (runOps [Op.add 5 "a" "2024-01-01"]) "2024-02-02").2 (by decide)

/-- C3: deleting a valid index marks only log entry `i`: the log keeps its
length, every other entry is untouched, the category views and the heap are
not modified at all, and (in any reachable state) every copy held in a
category bucket or in the heap still carries `deleted = false`. -/
theorem claim_C3 (ops : List Op) (i : Nat) (h : i < (runOps ops).expenses.length) :
    (deleteExpense i (runOps ops)).2.expenses.length = (runOps ops).expenses.length ∧
    (∀ h' : i < (deleteExpense i (runOps ops)).2.expenses.length,
      ((deleteExpense i (runOps ops)).2.expenses.get ⟨i, h'⟩).deleted = true) ∧
    (∀ j (hj : j < (runOps ops).expenses.length)
        (hj' : j < (deleteExpense i (runOps ops)).2.expenses.length), j ≠ i →
      (deleteExpense i (runOps ops)).2.expenses.get ⟨j, hj'⟩ =
        (runOps ops).expenses.get ⟨j, hj⟩) ∧
    (deleteExpense i (runOps ops)).2.categoryMap = (runOps ops).categoryMap ∧
    (deleteExpense i (runOps ops)).2.categoryTotals = (runOps ops).categoryTotals ∧
    (deleteExpense i (runOps ops)).2.maxHeap = (runOps ops).maxHeap ∧
    (∀ K : String, ∀ e ∈ ((deleteExpense i (runOps ops)).2.categoryMap K).getD [],
      e.deleted = false) ∧
    (∀ e ∈ (deleteExpense i (runOps ops)).2.maxHeap, e.deleted = false) := by
  obtain ⟨hheap, hbuck, _, _, _⟩ := trackerInv_runOps ops
  have hs : (deleteExpense i (runOps ops)).2 =
      { runOps ops with expenses := markDeleted (runOps ops).expenses i } := by
    rw [deleteExpense_snd, if_pos h]
  rw [hs]
  refine ⟨markDeleted_length _ i, ?_, ?_, rfl, rfl, rfl, hbuck, hheap⟩
  · intro h'
    rw [markDeleted_get_self (runOps ops).expenses i h h']
  · intro j hj hj' hij
    exact markDeleted_get_other (runOps ops).expenses i j hj hj' hij

/-- C3 witness: a one-record run, deleting index 0. -/
theorem claim_C3_witness :
    ((deleteExpense 0 (runOps [Op.add 1 "a" "2024-01-01"])).2.expenses.get
      ⟨0, by decide⟩).deleted = true ∧
    (deleteExpense 0 (runOps [Op.add 1 "a" "2024-01-01"])).2.maxHeap =
      (runOps [Op.add 1 "a" "2024-01-01"]).maxHeap :=
  ⟨(claim_C3 [Op.add 1 "a" "2024-01-01"] 0 (by decide)).2.1 (by decide),
   (claim_C3 [Op.add 1 "a" "2024-01-01"] 0 (by decide)).2.2.2.2.2.1⟩

/-- C4: `deleteExpense i` reports success and marks log entry `i` exactly
when `i < log.size()`; for any out-of-range `i` it reports failure and the
whole tracker is unchanged. -/
theorem claim_C4 (s : ExpenseTracker) (i : Nat) :
    ((deleteExpense i s).1 = true ↔ i < s.expenses.length) ∧
    (∀ _ : i < s.expenses.length,
      ∀ h' : i < (deleteExpense i s).2.expenses.length,
        ((deleteExpense i s).2.expenses.get ⟨i, h'⟩).deleted = true) ∧
    (¬ i < s.expenses.length →
      (deleteExpense i s).1 = false ∧ (deleteExpense i s).2 = s) := by
  refine ⟨?_, ?_, ?_⟩
  · rw [deleteExpense_fst]
    exact decide_eq_true_iff
  · intro h h'
    have hs : (deleteExpense i s).2 =
        { s with expenses := markDeleted s.expenses i } := by
      rw [deleteExpense_snd, if_pos h]
    revert h'
    rw [hs]
    intro h'
    rw [markDeleted_get_self s.expenses i h h']
  · intro h
    constructor
    · rw [deleteExpense_fst]
      simpa using h
    · rw [deleteExpense_snd, if_neg h]

/-- C4 witness: both branches on concrete runs — index 0 of a one-record
store succeeds and marks the entry, index 5 fails and changes nothing. -/
theorem claim_C4_witness :
    ((deleteExpense 0 (runOps [Op.add 1 "a" "2024-01-01"])).2.expenses.get
      ⟨0, by decide⟩).deleted = true ∧
    (deleteExpense 5 (runOps [Op.add 1 "a" "2024-01-01"])).1 = false ∧
    (deleteExpense 5 (runOps [Op.add 1 "a" "2024-01-01"])).2 =
      runOps [Op.add 1 "a" "2024-01-01"] :=
  ⟨(claim_C4 (runOps [Op.add 1 "a" "2024-01-01"]) 0).2.1 (by decide) (by decide),
   (claim_C4 (runOps [Op.add 1 "a" "2024-01-01"]) 5).2.2 (by decide)⟩

/-- C7: with only `add` and `delete` operations (no intervening
`filterByDate`), `viewExpenses` prints exactly the non-deleted records, as a
subsequence of the log, and the log's payloads are the insertion sequence in
original order. -/
theorem claim_C7 (ops : List Op) (h : ∀ o ∈ ops, isAddDel o = true) :
    viewExpenses (runOps ops) = (runOps ops).expenses.filter (fun e => !e.deleted) ∧
    ((runOps ops).expenses).map core = (addedRecords ops).map core ∧
    List.Sublist (viewExpenses (runOps ops)) (runOps ops).expenses := by
  refine ⟨rfl, ?_, List.filter_sublist _⟩
  have hcore := expenses_core_runFrom ops initTracker h
  simpa [initTracker] using hcore

/-- C7 witness: two adds and a delete; the log still lists both payloads in
insertion order. -/
theorem claim_C7_witness :
    ((runOps [Op.add 2 "a" "2024-01-01", Op.add 3 "b" "2024-01-02", Op.delete 0]).expenses).map
        core =
      (addedRecords [Op.add 2 "a" "2024-01-01", Op.add 3 "b" "2024-01-02",
        Op.delete 0]).map core :=
  (claim_C7 [Op.add 2 "a" "2024-01-01", Op.add 3 "b" "2024-01-02", Op.delete 0]
    (by decide)).2.1

/-- C8: deleting a valid index twice leaves exactly the state one delete
produces — the second call is a no-op on the store. -/
theorem claim_C8 (s : ExpenseTracker) (i : Nat) (h : i < s.expenses.length) :
    (deleteExpense i (deleteExpense i s).2).2 = (deleteExpense i s).2 := by
  have hs : (deleteExpense i s).2 =
      { s with expenses := markDeleted s.expenses i } := by
    rw [deleteExpense_snd, if_pos h]
  rw [hs, deleteExpense_snd]
  have hlen : i < (markDeleted s.expenses i).length := by
    rw [markDeleted_length]
    exact h
  rw [if_pos hlen]
  simp only [markDeleted_idem]

/-- C8 witness: double delete of index 0 on a one-record run. -/
theorem claim_C8_witness :
    (deleteExpense 0 (deleteExpense 0 (runOps [Op.add 1 "a" "2024-01-01"])).2).2 =
      (deleteExpense 0 (runOps [Op.add 1 "a" "2024-01-01"])).2 :=
  claim_C8 (runOps [Op.add 1 "a" "2024-01-01"]) 0 (by decide)

/-! ### Sanity checks: the example scenario of the spec (§8) -/

/-- Scenario state of §8: three adds (12.50 food, 40 food, 100 travel). -/
def scenarioOps : List Op :=
  [Op.add (25/2) "food" "2024-01-05", Op.add 40 "food" "2024-01-06",
   Op.add 100 "travel" "2024-01-05"]

example : ((runOps scenarioOps).categoryTotals "food").getD 0 = 105/2 := by
  simp [scenarioOps, runOps, step, addExpense, initTracker]
  norm_num

example : ((runOps scenarioOps).categoryTotals "travel").getD 0 = 100 := by
  simp [scenarioOps, runOps, step, addExpense, initTracker]

example : ((viewTopExpenses 2 (runOps scenarioOps)).1.map Expense.amount) = [100, 40] := by
  have h1 : (25/2 : ℚ) ≤ 40 := by norm_num
  have h2 : (25/2 : ℚ) ≤ 100 := by norm_num
  have h3 : (40 : ℚ) ≤ 100 := by norm_num
  have h4 : ¬ (100 : ℚ) ≤ 40 := by norm_num
  simp [scenarioOps, runOps, step, addExpense, initTracker, viewTopExpenses,
    List.orderedInsert, amtGE, h1, h2, h3, h4, topLoop]

example : ((viewExpenses (runOps (scenarioOps ++ [Op.delete 0]))).map Expense.amount) =
    [40, 100] := by
  simp [scenarioOps, runOps, step, addExpense, initTracker, viewExpenses,
    deleteExpense, markDeleted, viewTopExpenses]

example : ((runOps (scenarioOps ++ [Op.delete 0])).categoryTotals "food").getD 0 =
    105/2 := by
  simp [scenarioOps, runOps, step, addExpense, initTracker, deleteExpense, markDeleted]
  norm_num
